import Mathlib

/-!
Verification of the storage-synchronization core of firefiles
(`apps/web/hooks/useS3.tsx`): the S3 drive provider's listing pagination,
recursive prefix deletion, local folder-index merge rules, object-key
construction, and the tag read-modify-write operations.

The remote store client (AWS-SDK `S3Client`) is an external collaborator
with S3-compatible semantics; it is embedded here as explicit state passing
(the remote object set, the remote tag set) plus a trace of the requests the
code sends.  JavaScript string primitives (`trim`, `split`, `includes`,
`slice`) are modelled on `List Char`, the character data of Lean's `String`,
so that every definition evaluates by kernel reduction.
-/

namespace Firefiles

/-! ## Character-list models of the JavaScript string primitives used by the source -/

/-- JS `p` is a prefix of `s` (the semantics of an S3 `Prefix` filter). -/
def strPfx (p s : String) : Bool := p.data.isPrefixOf s.data

/-- Does the segment `sub` occur contiguously inside the second list? -/
def containsSeg (sub : List Char) : List Char → Bool
  | [] => sub.isEmpty
  | x :: xs => sub.isPrefixOf (x :: xs) || containsSeg sub xs

/-- JS `s.includes(sub)`: substring containment. -/
def strContains (s sub : String) : Bool := containsSeg sub.data s.data

/-- JS `s.split(d)` for a one-character separator `d`. -/
def splitChar (c : Char) : List Char → List (List Char)
  | [] => [[]]
  | x :: xs =>
    match splitChar c xs with
    | [] => [[]]
    | s :: ss => if x = c then [] :: s :: ss else (x :: s) :: ss

/-- JS `s.split("/").pop()`: the last segment of a slash-separated string. -/
def jsSplitPop (s : String) : String := ((splitChar '/' s.data).getLastD []).asString

/-- JS `s.slice(0, -1)`: drop the final character. -/
def jsSliceDropLast (s : String) : String := s.data.dropLast.asString

/-- JS `s.trim()`: strip leading and trailing whitespace. -/
def jsTrim (s : String) : String :=
  (((s.data.dropWhile Char.isWhitespace).reverse.dropWhile Char.isWhitespace).reverse).asString

/-! ## TagSetEditor (`listTags` / `addTags` / `editTags` / `removeTags`)

The remote tag set of the file under consideration is carried as explicit
state.  `GetObjectTagging` is read from that state; `PutObjectTagging` may
fail (the source wraps it in try/catch), which is modelled by an oracle list
of outcomes, one consumed per put request (an empty oracle means success).
Every operation also returns the trace of store requests it issued. -/

structure Tag where
  key : String
  value : String
  deriving Repr, DecidableEq

inductive TagReq
  | getTagging
  | putTagging (ts : List Tag)
  deriving Repr, DecidableEq

structure TagState where
  tags : List Tag
  putResults : List Bool
  deriving Repr, DecidableEq

/-- One `PutObjectTaggingCommand`: consumes the next oracle outcome; on success
the remote tag set becomes `ts`, on failure it is unchanged. -/
def sendPut (st : TagState) (ts : List Tag) : Bool × TagState :=
  match st.putResults with
  | [] => (true, { tags := ts, putResults := [] })
  | b :: rest => (b, { tags := if b then ts else st.tags, putResults := rest })

/-- `addTags` (useS3.tsx lines 252-279): reject a key blank after trimming,
otherwise get the current tag set, push the trimmed key with the value, and
put the whole set back. -/
def addTags (st : TagState) (key value : String) : Bool × TagState × List TagReq :=
  if jsTrim key = "" then (false, st, [])
  else
    let k := jsTrim key
    let currentTags := st.tags
    let newTags := currentTags ++ [{ key := k, value := value }]
    let r := sendPut st newTags
    (r.1, r.2, [TagReq.getTagging, TagReq.putTagging newTags])

/-- `removeTags` (useS3.tsx lines 300-320): get the current set, filter out
entries whose key matches, and put the filtered set back. -/
def removeTags (st : TagState) (key : String) : Bool × TagState × List TagReq :=
  let existingTags := st.tags
  let updatedTags := existingTags.filter (fun t => t.key != key)
  let r := sendPut st updatedTags
  (r.1, r.2, [TagReq.getTagging, TagReq.putTagging updatedTags])

/-- `editTags` (useS3.tsx lines 282-297): remove the previous tag, then add
the new one; if the add fails, re-add the previous tag as compensation. -/
def editTags (st : TagState) (prevTag newTag : Tag) : Bool × TagState × List TagReq :=
  let r1 := removeTags st prevTag.key
  if !r1.1 then (false, r1.2.1, r1.2.2)
  else
    let r2 := addTags r1.2.1 newTag.key newTag.value
    if r2.1 then (true, r2.2.1, r1.2.2 ++ r2.2.2)
    else
      let r3 := addTags r2.2.1 prevTag.key prevTag.value
      (false, r3.2.1, r1.2.2 ++ r2.2.2 ++ r3.2.2)

/-- `listTags` (useS3.tsx lines 239-249): early return (no request) when tags
are not enabled for the drive type; otherwise get the tag set and map it to
`{key, value}` pairs; a failed get is caught and surfaced as a toasted error
(the middle component below) with no tag list returned. -/
def listTags (enableTags getOk : Bool) (st : TagState) :
    Option (List Tag) × Bool × List TagReq :=
  if !enableTags then (none, false, [])
  else if getOk then
    (some (st.tags.map (fun t => { key := t.key, value := t.value })), false, [TagReq.getTagging])
  else (none, true, [TagReq.getTagging])

/-! ## DriveFolder, the FolderIndex merge rule, and `removeFolder`

`DriveFolder` mirrors the record built by the source (`addFolder` and the
listing effect).  The persisted FolderIndex is the `local_folders_<id>` array
held in localStorage, modelled as an explicit `List DriveFolder`. -/

structure DriveFolder where
  name : String
  fullPath : String
  parent : String
  bucketName : String
  bucketUrl : String
  createdAt : Option String
  deriving Repr, DecidableEq

/-- Response fields of the first `ListObjectsV2` page as used by the folder
merge (useS3.tsx lines 383-404): the bucket name (`results.Name`) and the
optional `CommonPrefixes` array (absent when the store returns none). -/
structure ListFoldersResp where
  respName : String
  commonPrefixes : Option (List String)
  deriving Repr, DecidableEq

/-- The remote-derived folder record the listing effect constructs for one
common prefix (useS3.tsx lines 394-402); its name is
`Prefix.slice(0, -1).split("/").pop()` and it carries no `createdAt`. -/
def remoteDriveFolder (respName bucketUrl curPath p : String) : DriveFolder :=
  { fullPath := p
    name := jsSplitPop (jsSliceDropLast p)
    bucketName := respName
    parent := curPath
    bucketUrl := bucketUrl
    createdAt := none }

/-- The folder merge performed at each folder visit (useS3.tsx lines
383-404): keep a locally indexed folder only if its parent is the current
folder and its `fullPath` is not found among the remote `CommonPrefixes`,
then append one folder record per remote common prefix. -/
def mergeFolders (localIndex : List DriveFolder) (curPath bucketUrl : String)
    (resp : ListFoldersResp) : List DriveFolder :=
  let localFoldersArray := localIndex.filter (fun folder =>
    folder.parent == curPath && !((resp.commonPrefixes.getD []).contains folder.fullPath))
  localFoldersArray ++
    (resp.commonPrefixes.getD []).map (remoteDriveFolder resp.respName bucketUrl curPath)

/-- The whole folder part of the listing effect: it produces the merged
in-memory folder view and leaves the persisted index untouched (the effect
only calls `localStorage.getItem`, never `setItem`). -/
def listingEffectFolders (localIndex : List DriveFolder) (curPath bucketUrl : String)
    (resp : ListFoldersResp) : List DriveFolder × List DriveFolder :=
  (mergeFolders localIndex curPath bucketUrl resp, localIndex)

/-- `removeFolder` (useS3.tsx lines 100-114), state part: the in-memory
folder list drops the exact `fullPath`, while the persisted index drops every
entry whose `fullPath` *contains* the target's `fullPath` as a substring
(`f.fullPath.includes(folder.fullPath)`).  The remote deletion it then
triggers is `emptyS3Dir` below. -/
def removeFolder (memFolders localIndex : List DriveFolder) (target : DriveFolder) :
    List DriveFolder × List DriveFolder :=
  (memFolders.filter (fun f => !(f.fullPath == target.fullPath)),
   localIndex.filter (fun f => !(strContains f.fullPath target.fullPath)))

/-! ## ObjectKeyCodec: key construction in `addFile` and leaf names -/

/-- The reserved-character test of `addFile` (useS3.tsx line 118), the regex
`/[#\$\[\]\*/]/`. -/
def hasReservedChar (s : String) : Bool :=
  s.data.any (fun c => c == '#' || c == '$' || c == '[' || c == ']' || c == '*' || c == '/')

/-- Key construction in `addFile` (useS3.tsx lines 118-128): reject names with
reserved characters, otherwise the key is the file name at the root folder and
`fullPath + name` elsewhere (the root folder's `fullPath` is the empty
string; `decodeURIComponent` is an external browser primitive, the identity
on paths free of percent-escapes). -/
def keyFor (folderPath fileName : String) : Option String :=
  if hasReservedChar fileName then none
  else some (if folderPath = "" then fileName else folderPath ++ fileName)

/-- The name derivation used on listed objects (useS3.tsx line 362):
`result.Key.split("/").pop()`. -/
def leafName (k : String) : String := jsSplitPop k

/-! ## DirectoryLister pagination (the listing effect, useS3.tsx lines 343-446)

A folder visit whose remote listing spans `N` pages is embedded as the page
chain itself: page `i` of the chain is what the store returns for
continuation token `i` (tokens are abstracted to page indices, `none` meaning
the initial request).  Following S3 `ListObjectsV2` semantics, a response is
truncated on every page but the last, carries the *next* page's token in
`NextContinuationToken`, and merely echoes the token of the request that
produced it in `ContinuationToken`. -/

structure ListPage where
  contents : List String
  commonPrefixes : List String
  deriving Repr, DecidableEq

structure ListObjectsResponse where
  contents : List String
  commonPrefixes : List String
  isTruncated : Bool
  continuationToken : Option Nat
  nextContinuationToken : Option Nat
  deriving Repr, DecidableEq

/-- One `ListObjectsV2Command` against a folder visit's page chain. -/
def sendList (chain : List ListPage) (token : Option Nat) : ListObjectsResponse :=
  let i := token.getD 0
  let page := chain.getD i ⟨[], []⟩
  { contents := page.contents
    commonPrefixes := page.commonPrefixes
    isTruncated := decide (i + 1 < chain.length)
    continuationToken := token
    nextContinuationToken := if i + 1 < chain.length then some (i + 1) else none }

/-- The `while (results.IsTruncated)` loop of the listing effect (useS3.tsx
lines 406-438): each iteration re-sends the request with
`ContinuationToken: results.ContinuationToken` and appends the returned
contents to the accumulated file list.  `fuel` bounds the number of
iterations; the boolean records whether the loop exited normally. -/
def listFilesLoop (chain : List ListPage) :
    Nat → ListObjectsResponse → List String → Bool × List String
  | 0, _, acc => (false, acc)
  | fuel + 1, results, acc =>
    if results.isTruncated then
      let next := sendList chain results.continuationToken
      listFilesLoop chain fuel next (acc ++ next.contents)
    else (true, acc)

/-- The file listing of one folder visit: the initial request followed by the
truncation loop. -/
def listAllFiles (chain : List ListPage) (fuel : Nat) : Bool × List String :=
  let r0 := sendList chain none
  listFilesLoop chain fuel r0 r0.contents

/-- A concrete two-page folder visit: page 1 holds key `a1` (truncated),
page 2 holds key `b1`. -/
def chainTwoPages : List ListPage := [⟨["a1"], []⟩, ⟨["b1"], []⟩]

/-! ## RecursiveDeleter (`emptyS3Directory`, useS3.tsx lines 474-494)

The remote bucket is the explicit list of its object keys.  The source
issues `ListObjectsV2` with `{ Bucket, Prefix }` only — no `Delimiter`, no
`ContinuationToken` — so following S3 semantics the store answers with the
keys under the prefix (first `ps` of them, `ps` being the server page size),
no `CommonPrefixes` member, and no `Contents` member at all when nothing
matches (the AWS response simply omits the node, which the SDK surfaces as
`undefined`). -/

structure DelReq where
  keys : List String
  deriving Repr, DecidableEq

structure ListReq where
  pfx : String
  delim : Option String
  token : Option Nat
  deriving Repr, DecidableEq

inductive S3Req
  | list (r : ListReq)
  | del (d : DelReq)
  deriving Repr, DecidableEq

structure ListStoreResp where
  contents : Option (List String)
  commonPrefixes : Option (List String)
  isTruncated : Bool
  deriving Repr, DecidableEq

/-- The store's answer to the deleter's un-delimited, un-tokenized listing of
`pfx`, with server page size `ps`. -/
def listStore (keys : List String) (ps : Nat) (pfx : String) : ListStoreResp :=
  let matching := keys.filter (fun k => strPfx pfx k)
  { contents := if matching.isEmpty then none else some (matching.take ps)
    commonPrefixes := none
    isTruncated := decide (ps < matching.length) }

/-- Depth-first walk over a page's `CommonPrefixes` (useS3.tsx lines
478-482), threading the bucket state and the request trace through `go`, the
recursive deletion of one prefix. -/
def runPrefixes (go : List String → String → Option (Except Unit (List String × List S3Req))) :
    List String → List String → Option (Except Unit (List String × List S3Req))
  | keys, [] => some (Except.ok (keys, []))
  | keys, p :: rest =>
    match go keys p with
    | none => none
    | some (Except.error e) => some (Except.error e)
    | some (Except.ok (keys1, tr1)) =>
      match runPrefixes go keys1 rest with
      | none => none
      | some (Except.error e) => some (Except.error e)
      | some (Except.ok (keys2, tr2)) => some (Except.ok (keys2, tr1 ++ tr2))

/-- `emptyS3Directory` (useS3.tsx lines 474-494) over a bucket holding
`keys`: list `{ Bucket, Prefix }` (no delimiter, no token), recurse
depth-first into any returned common prefixes, return early when
`Contents?.length === 0` (a *present but empty* contents array), crash with a
`TypeError` (modelled as `Except.error ()`) when `Contents` is absent and
line 488 reads `.length` of `undefined`, otherwise batch-delete the page's
keys in one `DeleteObjectsCommand` and, if the listing was truncated, recurse
on the same prefix.  `fuel` bounds the recursion depth; the result carries
the remaining bucket keys and the trace of issued requests. -/
def emptyS3Dir (ps : Nat) : Nat → List String → String →
    Option (Except Unit (List String × List S3Req))
  | 0, _, _ => none
  | fuel + 1, keys, pfx =>
    let resp := listStore keys ps pfx
    let listReq := S3Req.list { pfx := pfx, delim := none, token := none }
    let step1 :=
      if 0 < (resp.commonPrefixes.getD []).length then
        runPrefixes (fun ks p => emptyS3Dir ps fuel ks p) keys (resp.commonPrefixes.getD [])
      else some (Except.ok (keys, ([] : List S3Req)))
    match step1 with
    | none => none
    | some (Except.error e) => some (Except.error e)
    | some (Except.ok (keys1, tr1)) =>
      if resp.contents.map List.length = some 0 then
        some (Except.ok (keys1, listReq :: tr1))
      else
        match resp.contents with
        | none => some (Except.error ())
        | some cs =>
          let keys2 := keys1.filter (fun k => !(cs.contains k))
          if resp.isTruncated then
            match emptyS3Dir ps fuel keys2 pfx with
            | none => none
            | some (Except.error e) => some (Except.error e)
            | some (Except.ok (keys3, tr3)) =>
              some (Except.ok (keys3, listReq :: (tr1 ++ (S3Req.del ⟨cs⟩ :: tr3))))
          else
            some (Except.ok (keys2, listReq :: (tr1 ++ [S3Req.del ⟨cs⟩])))

/-! ## Small helper lemmas on the character-list string primitives -/

theorem isPrefixOf_self (l : List Char) : l.isPrefixOf l = true := by
  induction l with
  | nil => rfl
  | cons a as ih => simp [List.isPrefixOf, ih]

theorem containsSeg_self (l : List Char) : containsSeg l l = true := by
  cases l with
  | nil => rfl
  | cons a as => simp [containsSeg, isPrefixOf_self]

/-! ## Theorems: FolderIndex merge and pruning claims -/

/-- C3: at a folder visit, a locally-indexed folder entry whose `fullPath`
is also present among the remote listing's `CommonPrefixes` for that parent
is suppressed from the merged folder view, so exactly one folder with that
`fullPath` appears (the remote-derived one); the suppressed entry is not
deleted from the persisted index. -/
theorem folderMerge_suppression (localIndex : List DriveFolder) (curPath bucketUrl : String)
    (resp : ListFoldersResp) (p : String)
    (hp : p ∈ resp.commonPrefixes.getD []) (hnd : (resp.commonPrefixes.getD []).Nodup) :
    ((listingEffectFolders localIndex curPath bucketUrl resp).1.countP
        (fun g => g.fullPath == p)) = 1 ∧
    (∀ g ∈ (listingEffectFolders localIndex curPath bucketUrl resp).1,
      g.fullPath = p → g = remoteDriveFolder resp.respName bucketUrl curPath p) ∧
    (listingEffectFolders localIndex curPath bucketUrl resp).2 = localIndex := by
  have hzero : (localIndex.filter (fun folder =>
      folder.parent == curPath &&
        !((resp.commonPrefixes.getD []).contains folder.fullPath))).countP
      (fun g => g.fullPath == p) = 0 := by
    refine List.countP_eq_zero.mpr ?_
    intro g hg
    rcases List.mem_filter.mp hg with ⟨-, hcond⟩
    simp only [Bool.and_eq_true, Bool.not_eq_true'] at hcond
    intro hgp
    rw [beq_iff_eq] at hgp
    rw [hgp] at hcond
    have hmem : (resp.commonPrefixes.getD []).contains p = true := List.elem_iff.mpr hp
    rw [hmem] at hcond
    exact absurd hcond.2 (by simp)
  refine ⟨?_, ?_, rfl⟩
  · show ((mergeFolders localIndex curPath bucketUrl resp).countP (fun g => g.fullPath == p)) = 1
    rw [mergeFolders]
    rw [List.countP_append, hzero, Nat.zero_add, List.countP_map]
    have : ((fun g : DriveFolder => g.fullPath == p) ∘
        remoteDriveFolder resp.respName bucketUrl curPath) = fun q => q == p := by
      funext q
      simp [remoteDriveFolder]
    rw [this]
    exact List.count_eq_one_of_mem hnd hp
  · intro g hg hgp
    rcases List.mem_append.mp hg with hleft | hright
    · exact absurd (List.countP_eq_zero.mp hzero g hleft) (by simp [hgp])
    · rcases List.mem_map.mp hright with ⟨q, hq, rfl⟩
      have : q = p := hgp
      rw [this]

/-- C3 witness: visiting `docs/` with an indexed folder `docs/reports/` that
the remote listing also reports as a common prefix yields exactly one
`reports` folder in the merged view, and the index keeps its entry. -/
theorem folderMerge_suppression_witness :
    ((listingEffectFolders [⟨"reports", "docs/reports/", "docs/", "b", "u", some "t"⟩]
        "docs/" "u" ⟨"b", some ["docs/reports/"]⟩).1.countP
      (fun g => g.fullPath == "docs/reports/")) = 1 ∧
    (listingEffectFolders [⟨"reports", "docs/reports/", "docs/", "b", "u", some "t"⟩]
        "docs/" "u" ⟨"b", some ["docs/reports/"]⟩).2
      = [⟨"reports", "docs/reports/", "docs/", "b", "u", some "t"⟩] := by
  have h := folderMerge_suppression [⟨"reports", "docs/reports/", "docs/", "b", "u", some "t"⟩]
    "docs/" "u" ⟨"b", some ["docs/reports/"]⟩ "docs/reports/" (by decide) (by decide)
  exact ⟨h.1, h.2.2⟩

/-- C4: removing a folder removes from the persisted folder index the exact
entry and every entry whose `fullPath` contains the removed folder's
`fullPath` as a substring (containment, not strict-prefix match), so an
indexed folder whose path has the deleted path as a non-prefix substring is
also removed, and entries without the substring survive. -/
theorem removeFolder_substring_pruning (memFolders localIndex : List DriveFolder)
    (target f : DriveFolder) (hf : f ∈ localIndex) :
    (strContains f.fullPath target.fullPath = true →
      f ∉ (removeFolder memFolders localIndex target).2) ∧
    (f.fullPath = target.fullPath →
      f ∉ (removeFolder memFolders localIndex target).2) ∧
    (strContains f.fullPath target.fullPath = false →
      f ∈ (removeFolder memFolders localIndex target).2) := by
  refine ⟨?_, ?_, ?_⟩
  · intro h hmem
    rcases List.mem_filter.mp hmem with ⟨-, hcond⟩
    rw [h] at hcond
    exact absurd hcond (by simp)
  · intro h hmem
    rcases List.mem_filter.mp hmem with ⟨-, hcond⟩
    have : strContains f.fullPath target.fullPath = true := by
      rw [h]
      exact containsSeg_self _
    rw [this] at hcond
    exact absurd hcond (by simp)
  · intro h
    exact List.mem_filter.mpr ⟨hf, by rw [h]; rfl⟩

/-- C4 witness: deleting the folder `a/` prunes the indexed folder `xa/b/`,
whose path contains `a/` only as a non-prefix substring, while the unrelated
entry `c/` survives. -/
theorem removeFolder_substring_pruning_witness :
    (⟨"b", "xa/b/", "xa/", "", "", none⟩ : DriveFolder) ∉
      (removeFolder [] [⟨"b", "xa/b/", "xa/", "", "", none⟩, ⟨"c", "c/", "", "", "", none⟩]
        ⟨"a", "a/", "", "", "", none⟩).2 ∧
    (⟨"c", "c/", "", "", "", none⟩ : DriveFolder) ∈
      (removeFolder [] [⟨"b", "xa/b/", "xa/", "", "", none⟩, ⟨"c", "c/", "", "", "", none⟩]
        ⟨"a", "a/", "", "", "", none⟩).2 := by
  constructor
  · exact (removeFolder_substring_pruning []
      [⟨"b", "xa/b/", "xa/", "", "", none⟩, ⟨"c", "c/", "", "", "", none⟩]
      ⟨"a", "a/", "", "", "", none⟩ ⟨"b", "xa/b/", "xa/", "", "", none⟩
      (by decide)).1 (by decide)
  · exact (removeFolder_substring_pruning []
      [⟨"b", "xa/b/", "xa/", "", "", none⟩, ⟨"c", "c/", "", "", "", none⟩]
      ⟨"a", "a/", "", "", "", none⟩ ⟨"c", "c/", "", "", "", none⟩
      (by decide)).2.2 (by decide)

/-! ## Theorems: ObjectKeyCodec round-trip -/

theorem splitChar_ne_nil (c : Char) (l : List Char) : splitChar c l ≠ [] := by
  induction l with
  | nil => simp [splitChar]
  | cons x xs ih =>
    cases h : splitChar c xs with
    | nil => exact absurd h ih
    | cons s ss =>
      simp only [splitChar, h]
      by_cases hx : x = c <;> simp [hx]

theorem splitChar_not_mem (c : Char) (l : List Char) (h : c ∉ l) : splitChar c l = [l] := by
  induction l with
  | nil => rfl
  | cons x xs ih =>
    have hx : x ≠ c := fun hh => h (hh ▸ List.mem_cons_self x xs)
    have hxs : c ∉ xs := fun hh => h (List.mem_cons_of_mem x hh)
    simp only [splitChar, ih hxs]
    simp [hx]

theorem splitChar_length_cons (c x : Char) (xs : List Char) :
    (splitChar c (x :: xs)).length =
      if x = c then (splitChar c xs).length + 1 else (splitChar c xs).length := by
  cases h : splitChar c xs with
  | nil => exact absurd h (splitChar_ne_nil c xs)
  | cons s ss => by_cases hx : x = c <;> simp [splitChar, h, hx]

theorem two_le_splitChar_length (c : Char) (l : List Char) (h : c ∈ l) :
    2 ≤ (splitChar c l).length := by
  induction l with
  | nil => simp at h
  | cons x xs ih =>
    rw [splitChar_length_cons]
    by_cases hx : x = c
    · rw [if_pos hx]
      cases hsp : splitChar c xs with
      | nil => exact absurd hsp (splitChar_ne_nil c xs)
      | cons s ss => simp [hsp]
    · have hmem : c ∈ xs := by
        rcases List.mem_cons.mp h with h1 | h2
        · exact absurd h1.symm hx
        · exact h2
      rw [if_neg hx]
      exact ih hmem

theorem getLastD_splitChar_cons (c x : Char) (l : List Char) (d : List Char)
    (hlen : 2 ≤ (splitChar c l).length) :
    (splitChar c (x :: l)).getLastD d = (splitChar c l).getLastD d := by
  cases h : splitChar c l with
  | nil => exact absurd h (splitChar_ne_nil c l)
  | cons s ss =>
    cases ss with
    | nil => rw [h] at hlen; simp at hlen
    | cons t ts =>
      simp only [splitChar, h]
      by_cases hx : x = c
      · rw [if_pos hx]
        simp [List.getLastD_cons]
      · rw [if_neg hx]
        simp [List.getLastD_cons]

theorem getLastD_splitChar_append (c : Char) (xs ys : List Char) (d : List Char) :
    (splitChar c (xs ++ c :: ys)).getLastD d = (splitChar c ys).getLastD d := by
  induction xs generalizing d with
  | nil =>
    cases h : splitChar c ys with
    | nil => exact absurd h (splitChar_ne_nil c ys)
    | cons s ss =>
      simp only [List.nil_append, splitChar, h, if_pos rfl]
      simp [List.getLastD_cons]
  | cons x xs ih =>
    rw [List.cons_append]
    rw [getLastD_splitChar_cons c x (xs ++ c :: ys) d
      (two_le_splitChar_length c _ (by simp))]
    exact ih d

/-- C8: for every folder path (empty for root, otherwise slash-terminated)
and file name containing none of the reserved characters `# $ [ ] * /`,
building the store key by concatenating the folder's `fullPath` with the
file name and then taking everything after the last `/` of the key returns
the original file name: `keyFor` then `leafName` round-trips. -/
theorem keyFor_leafName_roundtrip (p name : String)
    (hp : p = "" ∨ ∃ q, p = q ++ "/") (hname : hasReservedChar name = false) :
    keyFor p name = some (if p = "" then name else p ++ name) ∧
    leafName (if p = "" then name else p ++ name) = name := by
  have hslash : '/' ∉ name.data := by
    intro hmem
    have hany : name.data.any
        (fun c => c == '#' || c == '$' || c == '[' || c == ']' || c == '*' || c == '/') = true :=
      List.any_eq_true.mpr ⟨'/', hmem, by decide⟩
    rw [hasReservedChar] at hname
    rw [hname] at hany
    exact absurd hany (by simp)
  have hsplit : splitChar '/' name.data = [name.data] := splitChar_not_mem _ _ hslash
  constructor
  · simp [keyFor, hname]
  · rcases hp with rfl | ⟨q, rfl⟩
    · rw [if_pos rfl, leafName, jsSplitPop, hsplit]
      rfl
    · have hpne : q ++ "/" ≠ "" := by
        intro hh
        have hd : (q ++ "/").data = ("" : String).data := congrArg String.data hh
        rw [String.data_append] at hd
        simp at hd
      rw [if_neg hpne, leafName, jsSplitPop]
      have hdata : (q ++ "/" ++ name).data = q.data ++ '/' :: name.data := by
        rw [String.data_append, String.data_append]
        simp
      rw [hdata, getLastD_splitChar_append, hsplit]
      rfl

/-- C8 witness: the root-relative folder `docs/` and the name `file.txt`
round-trip through the key `docs/file.txt`. -/
theorem keyFor_leafName_roundtrip_witness :
    keyFor "docs/" "file.txt" = some "docs/file.txt" ∧
    leafName "docs/file.txt" = "file.txt" := by
  obtain ⟨h1, h2⟩ := keyFor_leafName_roundtrip "docs/" "file.txt"
    (Or.inr ⟨"docs", by decide⟩) (by decide)
  have he : (if ("docs/" : String) = "" then "file.txt" else "docs/" ++ "file.txt")
      = "docs/file.txt" := by decide
  rw [he] at h1 h2
  exact ⟨h1, h2⟩

/-! ## Theorems: RecursiveDeleter -/

/-- One step of `emptyS3Dir` when the prefix matches nothing: the store omits
`Contents`, so line 488's `listedObjects.Contents.length` reads a property of
`undefined` and the operation throws instead of no-op'ing. -/
theorem emptyS3Dir_empty_run (ps f : Nat) (keys : List String) (pfx : String)
    (hf : 1 ≤ f) (hM : keys.filter (fun k => strPfx pfx k) = []) :
    emptyS3Dir ps f keys pfx = some (Except.error ()) := by
  obtain ⟨g, rfl⟩ : ∃ g, f = g + 1 := ⟨f - 1, (Nat.succ_pred_eq_of_pos hf).symm⟩
  simp [emptyS3Dir, listStore, hM]

/-- One step of `emptyS3Dir` on a non-empty, non-truncated page: the whole
matching set is listed and batch-deleted in a single request. -/
theorem emptyS3Dir_step_notrunc (ps g : Nat) (keys : List String) (pfx : String)
    (hps : 1 ≤ ps) (hM : keys.filter (fun k => strPfx pfx k) ≠ [])
    (htr : ¬ ps < (keys.filter (fun k => strPfx pfx k)).length) :
    emptyS3Dir ps (g + 1) keys pfx =
      some (Except.ok
        (keys.filter (fun k => !(((keys.filter (fun k => strPfx pfx k)).take ps).contains k)),
         [S3Req.list ⟨pfx, none, none⟩,
          S3Req.del ⟨(keys.filter (fun k => strPfx pfx k)).take ps⟩])) := by
  have hemp : (keys.filter (fun k => strPfx pfx k)).isEmpty = false :=
    Bool.eq_false_iff.mpr (fun hh => hM (List.isEmpty_iff.mp hh))
  have hlen0 : ((keys.filter (fun k => strPfx pfx k)).take ps).length ≠ 0 := by
    rw [List.length_take]
    obtain ⟨x, M', hMcons⟩ := List.exists_cons_of_ne_nil hM
    rw [hMcons]
    simp
    omega
  have hps0 : ¬ ps = 0 := by omega
  have hx : ∃ x ∈ keys, strPfx pfx x = true := by
    obtain ⟨x, M', hMcons⟩ := List.exists_cons_of_ne_nil hM
    have hxM : x ∈ keys.filter (fun k => strPfx pfx k) := by
      rw [hMcons]
      exact List.mem_cons_self _ _
    exact ⟨x, List.filter_subset' keys hxM, (List.mem_filter.mp hxM).2⟩
  simp [emptyS3Dir, listStore, hemp, hlen0, htr, hps0, hx]

/-- One step of `emptyS3Dir` on a truncated page whose recursive
continuation (a fresh listing of the same prefix against the shrunken
bucket) is known: the page is batch-deleted and the recursion's trace
follows. -/
theorem emptyS3Dir_step_trunc (ps g : Nat) (keys : List String) (pfx : String)
    (hps : 1 ≤ ps) (hM : keys.filter (fun k => strPfx pfx k) ≠ [])
    (htr : ps < (keys.filter (fun k => strPfx pfx k)).length)
    (keys3 : List String) (tr3 : List S3Req)
    (hrec : emptyS3Dir ps g
        (keys.filter (fun k => !(((keys.filter (fun k => strPfx pfx k)).take ps).contains k)))
        pfx = some (Except.ok (keys3, tr3))) :
    emptyS3Dir ps (g + 1) keys pfx =
      some (Except.ok (keys3,
        S3Req.list ⟨pfx, none, none⟩ ::
          S3Req.del ⟨(keys.filter (fun k => strPfx pfx k)).take ps⟩ :: tr3)) := by
  have hemp : (keys.filter (fun k => strPfx pfx k)).isEmpty = false :=
    Bool.eq_false_iff.mpr (fun hh => hM (List.isEmpty_iff.mp hh))
  have hlen0 : ((keys.filter (fun k => strPfx pfx k)).take ps).length ≠ 0 := by
    rw [List.length_take]
    obtain ⟨x, M', hMcons⟩ := List.exists_cons_of_ne_nil hM
    rw [hMcons]
    simp
    omega
  have hps0 : ¬ ps = 0 := by omega
  have hx : ∃ x ∈ keys, strPfx pfx x = true := by
    obtain ⟨x, M', hMcons⟩ := List.exists_cons_of_ne_nil hM
    have hxM : x ∈ keys.filter (fun k => strPfx pfx k) := by
      rw [hMcons]
      exact List.mem_cons_self _ _
    exact ⟨x, List.filter_subset' keys hxM, (List.mem_filter.mp hxM).2⟩
  simp at hrec
  simp [emptyS3Dir, listStore, hemp, hlen0, htr, hps0, hx, hrec]

/-- Full runs of `emptyS3Dir` on a bucket with at least one key under the
prefix: every listing request targets the same prefix with no delimiter and
no token, every delete request is a non-empty batch of prefixed keys, and
the run removes exactly the keys under the prefix. -/
theorem emptyS3Dir_deletes (ps : Nat) (hps : 1 ≤ ps) :
    ∀ n keys pfx f, keys.length ≤ n → keys.length + 1 ≤ f → keys.Nodup →
      keys.filter (fun k => strPfx pfx k) ≠ [] →
      ∃ tr, emptyS3Dir ps f keys pfx =
          some (Except.ok (keys.filter (fun k => !(strPfx pfx k)), tr)) ∧
        tr.head? = some (S3Req.list ⟨pfx, none, none⟩) ∧
        (∀ r ∈ tr, ∀ q, r = S3Req.list q → q = ⟨pfx, none, none⟩) ∧
        (∀ r ∈ tr, ∀ d, r = S3Req.del d → d.keys ≠ [] ∧ ∀ k ∈ d.keys, strPfx pfx k = true) := by
  intro n
  induction n with
  | zero =>
    intro keys pfx f hn hf hnd hM
    have hkeys : keys = [] := List.length_eq_zero.mp (Nat.le_zero.mp hn)
    subst hkeys
    simp at hM
  | succ n ih =>
    intro keys pfx f hn hf hnd hM
    obtain ⟨g, rfl⟩ : ∃ g, f = g + 1 := ⟨f - 1, (Nat.succ_pred_eq_of_pos (by omega)).symm⟩
    obtain ⟨x, M', hMcons⟩ := List.exists_cons_of_ne_nil hM
    have hxM : x ∈ keys.filter (fun k => strPfx pfx k) := by
      rw [hMcons]
      exact List.mem_cons_self _ _
    have hxkeys : x ∈ keys := List.filter_subset' keys hxM
    have hxcs : x ∈ (keys.filter (fun k => strPfx pfx k)).take ps := by
      rw [hMcons]
      obtain ⟨p', rfl⟩ : ∃ p', ps = p' + 1 := ⟨ps - 1, (Nat.succ_pred_eq_of_pos hps).symm⟩
      rw [List.take_succ_cons]
      exact List.mem_cons_self _ _
    have hcs_sub : (keys.filter (fun k => strPfx pfx k)).take ps ⊆
        keys.filter (fun k => strPfx pfx k) := List.take_subset _ _
    have hcs_pfx : ∀ k ∈ (keys.filter (fun k => strPfx pfx k)).take ps, strPfx pfx k = true :=
      fun k hk => (List.mem_filter.mp (hcs_sub hk)).2
    have hcsne : (keys.filter (fun k => strPfx pfx k)).take ps ≠ [] := fun hh => by
      rw [hh] at hxcs
      exact absurd hxcs (List.not_mem_nil x)
    have hlen2 : (keys.filter (fun k =>
        !(((keys.filter (fun k => strPfx pfx k)).take ps).contains k))).length < keys.length := by
      refine List.length_filter_lt_length_iff_exists.mpr ⟨x, hxkeys, ?_⟩
      simpa using hxcs
    have hnd2 : (keys.filter (fun k =>
        !(((keys.filter (fun k => strPfx pfx k)).take ps).contains k))).Nodup := hnd.filter _
    by_cases htr : ps < (keys.filter (fun k => strPfx pfx k)).length
    · have hM2 : (keys.filter (fun k =>
          !(((keys.filter (fun k => strPfx pfx k)).take ps).contains k))).filter
            (fun k => strPfx pfx k) ≠ [] := by
        intro hempty
        have hsub : keys.filter (fun k => strPfx pfx k) ⊆
            (keys.filter (fun k => strPfx pfx k)).take ps := by
          intro k hk
          by_contra hkcs
          have hk2 : k ∈ keys.filter (fun k =>
              !(((keys.filter (fun k => strPfx pfx k)).take ps).contains k)) := by
            refine List.mem_filter.mpr ⟨List.filter_subset' keys hk, ?_⟩
            simpa using hkcs
          have hkin : k ∈ (keys.filter (fun k =>
              !(((keys.filter (fun k => strPfx pfx k)).take ps).contains k))).filter
                (fun k => strPfx pfx k) :=
            List.mem_filter.mpr ⟨hk2, (List.mem_filter.mp hk).2⟩
          rw [hempty] at hkin
          exact absurd hkin (List.not_mem_nil k)
        have hMnd : (keys.filter (fun k => strPfx pfx k)).Nodup := hnd.filter _
        have hlenle := (hMnd.subperm hsub).length_le
        have hle2 : ((keys.filter (fun k => strPfx pfx k)).take ps).length ≤ ps := by
          rw [List.length_take]
          exact min_le_left _ _
        omega
      obtain ⟨tr3, hrun, hhead, hlists, hdels⟩ :=
        ih (keys.filter (fun k =>
          !(((keys.filter (fun k => strPfx pfx k)).take ps).contains k))) pfx g
          (by omega) (by omega) hnd2 hM2
      have hfix : (keys.filter (fun k =>
          !(((keys.filter (fun k => strPfx pfx k)).take ps).contains k))).filter
            (fun k => !(strPfx pfx k)) = keys.filter (fun k => !(strPfx pfx k)) := by
        rw [List.filter_filter]
        refine List.filter_congr ?_
        intro k hk
        cases hpk : strPfx pfx k with
        | true => simp [hpk]
        | false =>
          have hkcs : k ∉ (keys.filter (fun k => strPfx pfx k)).take ps := fun hh => by
            have hcontra := hcs_pfx k hh
            rw [hpk] at hcontra
            exact absurd hcontra (by simp)
          simp [hpk, hkcs]
      rw [hfix] at hrun
      refine ⟨S3Req.list ⟨pfx, none, none⟩ ::
        S3Req.del ⟨(keys.filter (fun k => strPfx pfx k)).take ps⟩ :: tr3,
        emptyS3Dir_step_trunc ps g keys pfx hps hM htr _ _ hrun, rfl, ?_, ?_⟩
      · intro r hr q hq
        rcases List.mem_cons.mp hr with rfl | hr2
        · injection hq with h
          exact h.symm
        rcases List.mem_cons.mp hr2 with rfl | hr3
        · exact absurd hq (by simp)
        · exact hlists r hr3 q hq
      · intro r hr d hd
        rcases List.mem_cons.mp hr with rfl | hr2
        · exact absurd hd (by simp)
        rcases List.mem_cons.mp hr2 with rfl | hr3
        · have hdeq : d = ⟨(keys.filter (fun k => strPfx pfx k)).take ps⟩ := by
            injection hd with h
            exact h.symm
          subst hdeq
          exact ⟨hcsne, hcs_pfx⟩
        · exact hdels r hr3 d hd
    · have hcseq : (keys.filter (fun k => strPfx pfx k)).take ps =
          keys.filter (fun k => strPfx pfx k) := List.take_of_length_le (by omega)
      have hkeys2fix : keys.filter (fun k =>
          !(((keys.filter (fun k => strPfx pfx k)).take ps).contains k)) =
          keys.filter (fun k => !(strPfx pfx k)) := by
        refine List.filter_congr ?_
        intro k hk
        rw [hcseq]
        cases hpk : strPfx pfx k with
        | true =>
          have hkM : k ∈ keys.filter (fun k => strPfx pfx k) := List.mem_filter.mpr ⟨hk, hpk⟩
          simpa [hpk] using hkM
        | false =>
          have hkM : k ∉ keys.filter (fun k => strPfx pfx k) := fun hh => by
            have hcontra := (List.mem_filter.mp hh).2
            rw [hpk] at hcontra
            exact absurd hcontra (by simp)
          simp [hpk, hkM]
      refine ⟨[S3Req.list ⟨pfx, none, none⟩,
        S3Req.del ⟨(keys.filter (fun k => strPfx pfx k)).take ps⟩], ?_, rfl, ?_, ?_⟩
      · rw [emptyS3Dir_step_notrunc ps g keys pfx hps hM htr, hkeys2fix]
      · intro r hr q hq
        rcases List.mem_cons.mp hr with rfl | hr2
        · injection hq with h
          exact h.symm
        rcases List.mem_cons.mp hr2 with rfl | hr3
        · exact absurd hq (by simp)
        · exact absurd hr3 (List.not_mem_nil r)
      · intro r hr d hd
        rcases List.mem_cons.mp hr with rfl | hr2
        · exact absurd hd (by simp)
        rcases List.mem_cons.mp hr2 with rfl | hr3
        · have hdeq : d = ⟨(keys.filter (fun k => strPfx pfx k)).take ps⟩ := by
            injection hd with h
            exact h.symm
          subst hdeq
          exact ⟨hcsne, hcs_pfx⟩
        · exact absurd hr3 (List.not_mem_nil r)

/-- C2 counterexample: running the deleter on a concrete two-key prefix
(server page size 1) shows every listing request carries `delim = none` —
not the delimiter-scoped listing the claim states — and the repeat listing
after a truncated page carries `token = none` rather than a continuation
token; moreover deleting a prefix with no matching keys is an error (the
`TypeError` of line 488), not a no-op. -/
theorem emptyS3Directory_counterexample :
    emptyS3Dir 1 3 ["docs/a", "docs/b"] "docs/" =
      some (Except.ok ([],
        [S3Req.list ⟨"docs/", none, none⟩, S3Req.del ⟨["docs/a"]⟩,
         S3Req.list ⟨"docs/", none, none⟩, S3Req.del ⟨["docs/b"]⟩])) ∧
    (⟨"docs/", none, none⟩ : ListReq).delim ≠ some "/" ∧
    (⟨"docs/", none, none⟩ : ListReq).token = none ∧
    emptyS3Dir 1 1 [] "docs/" = some (Except.error ()) :=
  ⟨rfl, by decide, rfl, rfl⟩

/-- C2 (amended): for every prefix, the recursive delete lists the prefix
with *no* delimiter and no continuation token (so the store returns no
folder prefixes and the depth-first recursion branch is never taken),
batch-deletes all file keys of the current page in a single multi-key delete
request, repeats the listing *of the same prefix from the start* if the page
was truncated (the deleted keys no longer appear), terminates when a page
has zero contents, and removes exactly the keys under the prefix; deleting a
prefix under which the store holds no keys makes the store omit the
`Contents` member, upon which the operation throws a `TypeError` instead of
returning without a delete request. -/
theorem emptyS3Directory_amended (ps : Nat) (keys : List String) (pfx : String) (f : Nat)
    (hps : 1 ≤ ps) (hnd : keys.Nodup) (hf : keys.length + 1 ≤ f) :
    (keys.filter (fun k => strPfx pfx k) = [] →
      emptyS3Dir ps f keys pfx = some (Except.error ())) ∧
    (keys.filter (fun k => strPfx pfx k) ≠ [] →
      ∃ tr, emptyS3Dir ps f keys pfx =
          some (Except.ok (keys.filter (fun k => !(strPfx pfx k)), tr)) ∧
        tr.head? = some (S3Req.list ⟨pfx, none, none⟩) ∧
        (∀ r ∈ tr, ∀ q, r = S3Req.list q → q = ⟨pfx, none, none⟩) ∧
        (∀ r ∈ tr, ∀ d, r = S3Req.del d → d.keys ≠ [] ∧ ∀ k ∈ d.keys, strPfx pfx k = true)) :=
  ⟨fun hM => emptyS3Dir_empty_run ps f keys pfx (by omega) hM,
   fun hM => emptyS3Dir_deletes ps hps keys.length keys pfx f le_rfl hf hnd hM⟩

/-- C2 witness: a three-key bucket with two keys under `docs/` and page size
1 is emptied of exactly the `docs/` keys through same-prefix, no-delimiter,
no-token listings; an empty prefix errors. -/
theorem emptyS3Directory_amended_witness :
    (∃ tr, emptyS3Dir 1 4 ["docs/a", "docs/b", "x"] "docs/" =
        some (Except.ok (["x"], tr)) ∧
      tr.head? = some (S3Req.list ⟨"docs/", none, none⟩) ∧
      (∀ r ∈ tr, ∀ q, r = S3Req.list q → q = ⟨"docs/", none, none⟩) ∧
      (∀ r ∈ tr, ∀ d, r = S3Req.del d → d.keys ≠ [] ∧ ∀ k ∈ d.keys, strPfx "docs/" k = true)) ∧
    emptyS3Dir 1 2 ["x"] "docs/" = some (Except.error ()) := by
  constructor
  · have h := (emptyS3Directory_amended 1 ["docs/a", "docs/b", "x"] "docs/" 4
      (by decide) (by decide) (by decide)).2 (by decide)
    have he : ["docs/a", "docs/b", "x"].filter (fun k => !(strPfx "docs/" k)) = ["x"] := by
      decide
    rw [he] at h
    exact h
  · exact (emptyS3Directory_amended 1 ["x"] "docs/" 2
      (by decide) (by decide) (by decide)).1 (by decide)

/-! ## Theorems: DirectoryLister pagination -/

theorem listFilesLoop_twoPages (fuel : Nat) (acc : List String) :
    listFilesLoop chainTwoPages fuel (sendList chainTwoPages none) acc =
      (false, acc ++ List.replicate fuel "a1") := by
  induction fuel generalizing acc with
  | zero => simp [listFilesLoop]
  | succ n ih =>
    have hstep : listFilesLoop chainTwoPages (n + 1) (sendList chainTwoPages none) acc =
        listFilesLoop chainTwoPages n (sendList chainTwoPages none) (acc ++ ["a1"]) := rfl
    rw [hstep, ih, List.replicate_succ]
    simp

/-- C1 (refuted, code bug): on a folder visit whose remote listing spans two
pages, the listing loop passes the response's echoed `ContinuationToken`
(which S3 sets to the token of the request that produced the response — the
absent token of the initial request) instead of `NextContinuationToken`, so
every iteration refetches page 1: the loop never terminates for any amount
of fuel, page 1's contents are accumulated once per iteration (duplicates),
and page 2's contents are never merged — contradicting the claimed merge of
the union of all pages with no duplicates. -/
theorem listAllFiles_pagination_bug (fuel : Nat) :
    listAllFiles chainTwoPages fuel = (false, List.replicate (fuel + 1) "a1") := by
  have hinit : listAllFiles chainTwoPages fuel =
      listFilesLoop chainTwoPages fuel (sendList chainTwoPages none) ["a1"] := rfl
  rw [hinit, listFilesLoop_twoPages fuel ["a1"], List.replicate_succ, List.singleton_append]

/-! ## Theorems: TagSetEditor claims -/

/-- C5: `addTags(file, key, value)` with a key that is blank after trimming
returns failure immediately without issuing any store request, leaving the
remote tag set unchanged; with a non-blank key it fetches the current tag
set, appends `{key, value}` (the trimmed key variable, duplicates by key
allowed), writes the full set back, and returns success exactly when the
write succeeds. -/
theorem addTags_validation_and_writeback (st : TagState) (key value : String) :
    (jsTrim key = "" → addTags st key value = (false, st, [])) ∧
    (jsTrim key ≠ "" →
      addTags st key value =
        (st.putResults.headD true,
         { tags := if st.putResults.headD true then st.tags ++ [⟨jsTrim key, value⟩] else st.tags,
           putResults := st.putResults.tail },
         [TagReq.getTagging, TagReq.putTagging (st.tags ++ [⟨jsTrim key, value⟩])])) := by
  constructor
  · intro h
    simp [addTags, h]
  · intro h
    cases hp : st.putResults with
    | nil => simp [addTags, h, sendPut, hp]
    | cons b rest => cases b <;> simp [addTags, h, sendPut, hp]

/-- C5 witness: a blank key aborts with no request and no state change; a
non-blank key round-trips the fetched set plus the new pair through the
store. -/
theorem addTags_validation_and_writeback_witness :
    addTags ⟨[⟨"k", "w"⟩], []⟩ "" "v" = (false, ⟨[⟨"k", "w"⟩], []⟩, []) ∧
    addTags ⟨[], []⟩ "a" "v" =
      (true, ⟨[⟨"a", "v"⟩], []⟩, [TagReq.getTagging, TagReq.putTagging [⟨"a", "v"⟩]]) := by
  constructor
  · exact (addTags_validation_and_writeback ⟨[⟨"k", "w"⟩], []⟩ "" "v").1 (by decide)
  · rw [(addTags_validation_and_writeback ⟨[], []⟩ "a" "v").2 (by decide)]
    decide

/-- C6: `editTags(file, prevTag, newTag)` performs a remove of `prevTag.key`
followed by an add of `newTag`, returning failure without attempting the add
when the remove fails; when the add step fails it re-adds `prevTag` as
compensation and returns failure; in particular
`editTags(file, {key: "a", value: "1"}, {key: "", value: "2"})` fails the add
step and the file retains tag `{a: 1}`. -/
theorem editTags_compensation (st : TagState) (prevTag newTag : Tag) :
    (∀ st1 tr1, removeTags st prevTag.key = (false, st1, tr1) →
      editTags st prevTag newTag = (false, st1, tr1)) ∧
    (∀ st1 tr1 st2 tr2, removeTags st prevTag.key = (true, st1, tr1) →
      addTags st1 newTag.key newTag.value = (false, st2, tr2) →
      editTags st prevTag newTag =
        (false, (addTags st2 prevTag.key prevTag.value).2.1,
         tr1 ++ tr2 ++ (addTags st2 prevTag.key prevTag.value).2.2)) ∧
    editTags ⟨[⟨"a", "1"⟩], []⟩ ⟨"a", "1"⟩ ⟨"", "2"⟩ =
      (false, ⟨[⟨"a", "1"⟩], []⟩,
       [TagReq.getTagging, TagReq.putTagging [],
        TagReq.getTagging, TagReq.putTagging [⟨"a", "1"⟩]]) := by
  refine ⟨?_, ?_, by decide⟩
  · intro st1 tr1 h
    simp [editTags, h]
  · intro st1 tr1 st2 tr2 h1 h2
    simp [editTags, h1, h2]

/-- C6 witness: a failing remove aborts before the add; a failing add
triggers the compensating re-add of the previous tag. -/
theorem editTags_compensation_witness :
    editTags ⟨[], [false]⟩ ⟨"a", "1"⟩ ⟨"b", "2"⟩ =
      (false, ⟨[], []⟩, [TagReq.getTagging, TagReq.putTagging []]) ∧
    editTags ⟨[⟨"a", "1"⟩], [true, false]⟩ ⟨"a", "1"⟩ ⟨"b", "2"⟩ =
      (false, ⟨[⟨"a", "1"⟩], []⟩,
       [TagReq.getTagging, TagReq.putTagging [],
        TagReq.getTagging, TagReq.putTagging [⟨"b", "2"⟩],
        TagReq.getTagging, TagReq.putTagging [⟨"a", "1"⟩]]) := by
  constructor
  · exact (editTags_compensation ⟨[], [false]⟩ ⟨"a", "1"⟩ ⟨"b", "2"⟩).1
      ⟨[], []⟩ [TagReq.getTagging, TagReq.putTagging []] (by decide)
  · rw [(editTags_compensation ⟨[⟨"a", "1"⟩], [true, false]⟩ ⟨"a", "1"⟩ ⟨"b", "2"⟩).2.1
      ⟨[], [false]⟩ [TagReq.getTagging, TagReq.putTagging []]
      ⟨[], []⟩ [TagReq.getTagging, TagReq.putTagging [⟨"b", "2"⟩]] (by decide) (by decide)]
    decide

/-- C7: `removeTags(file, key)` is idempotent — calling it twice with the
same key yields the same final tag set as calling it once; it fetches the
current set, filters out entries whose key matches, and writes the filtered
set back, performing a no-op store write when the key was not present. -/
theorem removeTags_idempotent (st : TagState) (key : String) (hok : st.putResults = []) :
    ((removeTags (removeTags st key).2.1 key).2.1).tags = ((removeTags st key).2.1).tags ∧
    ((removeTags st key).2.1).tags = st.tags.filter (fun t => t.key != key) ∧
    (key ∉ st.tags.map Tag.key →
      (removeTags st key).2.2 = [TagReq.getTagging, TagReq.putTagging st.tags] ∧
      ((removeTags st key).2.1).tags = st.tags) := by
  have hfilter : ∀ l : List Tag, l.filter (fun t => t.key != key) = l ↔
      ∀ t ∈ l, (t.key != key) = true := fun l => List.filter_eq_self
  refine ⟨?_, ?_, ?_⟩
  · simp [removeTags, sendPut, hok, List.filter_filter]
  · simp [removeTags, sendPut, hok]
  · intro h
    have hfix : st.tags.filter (fun t => t.key != key) = st.tags := by
      refine (hfilter st.tags).mpr ?_
      intro t ht
      simp only [bne_iff_ne, ne_eq]
      intro hcontra
      exact h (hcontra ▸ List.mem_map_of_mem Tag.key ht)
    constructor
    · simp [removeTags, sendPut, hok, hfix]
    · simp [removeTags, sendPut, hok, hfix]

/-- C7 witness: removing the absent key `b` twice from the set `{a: 1}`
equals removing it once, and the single removal issues the no-op write of
the unchanged set. -/
theorem removeTags_idempotent_witness :
    ((removeTags (removeTags ⟨[⟨"a", "1"⟩], []⟩ "b").2.1 "b").2.1).tags
        = ((removeTags ⟨[⟨"a", "1"⟩], []⟩ "b").2.1).tags ∧
    (removeTags ⟨[⟨"a", "1"⟩], []⟩ "b").2.2
        = [TagReq.getTagging, TagReq.putTagging [⟨"a", "1"⟩]] := by
  have h := removeTags_idempotent ⟨[⟨"a", "1"⟩], []⟩ "b" rfl
  exact ⟨h.1, (h.2.2 (by decide)).1⟩

/-- C9: `listTags(file)` fetches the file's current tag set and returns it as
an array of `{key, value}` pairs; when tagging is unsupported for the drive
type it returns empty-handed before issuing any store request, as a
capability outcome and not an error — unlike a failed fetch, which is
surfaced as an error. -/
theorem listTags_capability (st : TagState) (getOk : Bool) :
    listTags false getOk st = (none, false, []) ∧
    listTags true true st =
      (some (st.tags.map (fun t => { key := t.key, value := t.value })), false,
       [TagReq.getTagging]) ∧
    listTags true false st = (none, true, [TagReq.getTagging]) :=
  ⟨rfl, rfl, rfl⟩

/-- C10: for every key whose trimmed form is non-blank, `addTags` stores the
trimmed key — the tag appended to the fetched tag set and written back to
the store is `{Key: key.trim(), Value: value}` — so a key passed with
surrounding whitespace never appears in the stored tag set with that
whitespace. -/
theorem addTags_trims_key (st : TagState) (key value : String)
    (hk : jsTrim key ≠ "") (hok : st.putResults = []) :
    addTags st key value =
      (true, { tags := st.tags ++ [⟨jsTrim key, value⟩], putResults := [] },
       [TagReq.getTagging, TagReq.putTagging (st.tags ++ [⟨jsTrim key, value⟩])]) := by
  simp [addTags, hk, sendPut, hok]

/-- C10 witness: the key `" a "` is stored as `"a"`. -/
theorem addTags_trims_key_witness :
    addTags ⟨[], []⟩ " a " "v" =
      (true, ⟨[⟨"a", "v"⟩], []⟩, [TagReq.getTagging, TagReq.putTagging [⟨"a", "v"⟩]]) := by
  rw [addTags_trims_key ⟨[], []⟩ " a " "v" (by decide) rfl]
  decide

end Firefiles
